import Mathlib

/-!
Verification of the stream broadcast/remux engine of the AppleTV deep-link
backend (`backend/app/stream_merge.py` and the delivery route in
`backend/app/routers/appletv.py`), as a shallow embedding in Lean 4.

Modelling conventions:
* a byte chunk is a `List Nat` (only length and identity of chunks matter);
* Python `queue.Queue` contents are plain Lean lists (the bounded `put`
  blocks instead of failing, so the sequence of enqueued items is what a
  list models; boundedness is a liveness concern outside this embedding);
* the per-session `buffer_lock` serialises the broadcaster's chunk relay
  and consumer (un)registration, so those critical sections are modelled
  as atomic steps of one sequential event trace;
* wall-clock instants are natural numbers (milliseconds for the prewarm
  poll loop, seconds for the session TTL), matching the comparisons the
  source performs on them.
-/

namespace StreamMerge

/-- Byte chunk: a list of bytes. -/
abbrev Chunk := List Nat

/-- Source constant `_SESSION_TTL_SEC = 3600` (stream_merge.py line 14). -/
def _SESSION_TTL_SEC : Nat := 3600

/-- Source constant `_PREWARM_QUEUE_MAXSIZE = 128` (stream_merge.py line 15). -/
def _PREWARM_QUEUE_MAXSIZE : Nat := 128

/-- Source constant `_BROADCAST_BUFFER_BYTES = 2 * 1024 * 1024` (stream_merge.py line 16). -/
def _BROADCAST_BUFFER_BYTES : Nat := 2 * 1024 * 1024

/-! ## Session registry (`_sessions`, `get_merge_session`)

The Python session table `_sessions` is a dict from stream id to a session
record; for TTL reasoning only the `created_at` field matters, so the table
is modelled as an association list from id to creation time. -/

/-- Dict lookup `_sessions.get(stream_id)` on the association-list model. -/
def lookupSession : List (String × Nat) → String → Option Nat
  | [], _ => none
  | (k, v) :: rest, id => if k = id then some v else lookupSession rest id

/-- Dict deletion `del _sessions[stream_id]`: drop the entry with the given
key (dict keys are unique, so dropping every match is the same operation). -/
def eraseSession (tbl : List (String × Nat)) (id : String) : List (String × Nat) :=
  tbl.filter (fun p => p.1 != id)

/-- Embedding of `get_merge_session` (stream_merge.py lines 199-208): look the
id up; a present entry whose age exceeds `_SESSION_TTL_SEC` is deleted and
reported absent; otherwise the entry is returned and the table unchanged.
Returns the lookup result together with the table after the call. -/
def get_merge_session (tbl : List (String × Nat)) (now : Nat) (id : String) :
    Option Nat × List (String × Nat) :=
  match lookupSession tbl id with
  | none => (none, tbl)
  | some created =>
    if _SESSION_TTL_SEC < now - created then (none, eraseSession tbl id)
    else (some created, tbl)

lemma lookupSession_eraseSession (tbl : List (String × Nat)) (id : String) :
    lookupSession (eraseSession tbl id) id = none := by
  induction tbl with
  | nil => rfl
  | cons p rest ih =>
    by_cases h : p.1 = id
    · simpa [eraseSession, h] using ih
    · simpa [eraseSession, lookupSession, h] using ih

/-- C5: once `ttl` has elapsed for a known id (`now - createdAt > ttl`),
`get_merge_session` returns `None` and deletes the entry from the table in
the same call (so a subsequent lookup in the returned table also misses);
for a known, unexpired id it returns the session and leaves the table
unchanged. -/
theorem get_session_lazy_expiry (tbl : List (String × Nat)) (now : Nat) (id : String)
    (created : Nat) (h : lookupSession tbl id = some created) :
    (_SESSION_TTL_SEC < now - created →
        get_merge_session tbl now id = (none, eraseSession tbl id) ∧
        lookupSession (get_merge_session tbl now id).2 id = none) ∧
    (¬ _SESSION_TTL_SEC < now - created →
        get_merge_session tbl now id = (some created, tbl)) := by
  constructor
  · intro hexp
    have hres : get_merge_session tbl now id = (none, eraseSession tbl id) := by
      simp [get_merge_session, h, hexp]
    exact ⟨hres, by rw [hres]; exact lookupSession_eraseSession tbl id⟩
  · intro hfresh
    simp [get_merge_session, h, hfresh]

/-- C5 witness: a session created at time 0 looked up at time 4000 (past the
3600 s TTL) is gone and evicted; looked up at time 100 it is returned. -/
theorem get_session_lazy_expiry_witness :
    (get_merge_session [("a1b2", 0)] 4000 "a1b2" = (none, eraseSession [("a1b2", 0)] "a1b2") ∧
      lookupSession (get_merge_session [("a1b2", 0)] 4000 "a1b2").2 "a1b2" = none) ∧
    get_merge_session [("a1b2", 0)] 100 "a1b2" = (some 0, [("a1b2", 0)]) :=
  ⟨(get_session_lazy_expiry [("a1b2", 0)] 4000 "a1b2" 0 (by decide)).1 (by decide),
   (get_session_lazy_expiry [("a1b2", 0)] 100 "a1b2" 0 (by decide)).2 (by decide)⟩

/-! ## Consumer unregistration (`unregister` closure, stream_merge.py lines 313-317)

`unregister` does `consumers.remove(q)` and swallows the `ValueError` that
`remove` raises when `q` is absent. Python `list.remove` deletes the first
occurrence; with the `ValueError` swallowed this is exactly `List.erase`.
Queues are identified by an id. -/

/-- Embedding of the `unregister` closure: remove the first occurrence of the
consumer queue from the consumer list, a no-op when it is absent. -/
def unregister (consumers : List Nat) (q : Nat) : List Nat :=
  consumers.erase q

/-- C10: the unregister callback is idempotent and total. Any queue produced
by `_register_consumer` is a fresh object appended once, so it occurs at most
once in the consumer list; under that precondition the first call removes it
and every further call leaves the list unchanged (and, being a total
function, never raises). -/
theorem unregister_idempotent (l : List Nat) (q : Nat) (h : l.count q ≤ 1) :
    unregister (unregister l q) q = unregister l q ∧ q ∉ unregister l q := by
  have hnot : q ∉ l.erase q := by
    intro hmem
    have hc := List.count_erase_self q l
    have hone : 0 < (l.erase q).count q := List.count_pos_iff.2 hmem
    omega
  exact ⟨congrArg (fun t => unregister t q) rfl |>.trans (List.erase_of_not_mem hnot), hnot⟩

/-- C10 witness: with consumer queues `[3, 7]`, unregistering queue 7 twice
equals unregistering it once, and 7 is gone after the first call. -/
theorem unregister_idempotent_witness :
    unregister (unregister [3, 7] 7) 7 = unregister [3, 7] 7 ∧ 7 ∉ unregister [3, 7] 7 :=
  unregister_idempotent [3, 7] 7 (by decide)

/-! ## Delivery route dispatch (`stream_merged_mp4_async`, router `stream_merged`)

`GET /api/appletv/stream/{id}` (routers/appletv.py lines 128-137) calls
`stream_merged_mp4_async(stream_id)` with every optional argument left at its
default (`first_chunk=None`, `chunk_queue=None`, `unregister_cb=None`).
`stream_merged_mp4_async` (stream_merge.py lines 389-461) then picks one of
three code paths:
1. `first_chunk is not None and chunk_queue is not None`: yield the given
   first chunk and then drain the caller-registered consumer queue;
2. `"chunk_queue" in session`: drain `session["chunk_queue"]`;
3. otherwise: start `_run_ffmpeg_stream(stream_id)` on an executor — a brand
   new ffmpeg subprocess — and drain its private 16-slot queue, without ever
   calling `_register_consumer`.
The dispatch depends only on which optional arguments were passed and on the
session dict's keys, so it is embedded as a function of those. -/

inductive DeliveryPath where
  /-- Branch 1: yield the caller-supplied first chunk, then the caller's
  pre-registered consumer queue. -/
  | yieldGivenFirstChunk
  /-- Branch 2: drain the queue stored under the session key `"chunk_queue"`. -/
  | yieldSessionChunkQueue
  /-- Branch 3 (fallback): spawn a fresh ffmpeg run via `_run_ffmpeg_stream`. -/
  | spawnNewFfmpeg
deriving DecidableEq

/-- Keys of the session dict built by `create_merge_session`
(stream_merge.py lines 125-135). -/
def create_merge_session_keys : List String :=
  ["video_url", "audio_url", "height", "created_at", "broadcast_queue",
   "consumers", "buffer_list", "buffer_lock", "requested"]

/-- Keys of the session dict built by `create_hls_session`
(stream_merge.py lines 178-186). -/
def create_hls_session_keys : List String :=
  ["hls_url", "created_at", "broadcast_queue", "consumers", "buffer_list",
   "buffer_lock", "requested"]

/-- Branch selection of `stream_merged_mp4_async` for a found session, as a
function of whether `first_chunk`/`chunk_queue` were passed and of the
session dict's keys. -/
def stream_merged_mp4_async_path (session_keys : List String)
    (first_chunk_given chunk_queue_given : Bool) : DeliveryPath :=
  if first_chunk_given && chunk_queue_given then DeliveryPath.yieldGivenFirstChunk
  else if session_keys.contains ("chunk_queue") then DeliveryPath.yieldSessionChunkQueue
  else DeliveryPath.spawnNewFfmpeg

/-- Whether the chosen path launches another external ffmpeg process
(only the fallback path calls `_run_ffmpeg_stream`, which runs
`subprocess.Popen(["ffmpeg", ...])`). -/
def path_invokes_new_ffmpeg : DeliveryPath → Bool
  | DeliveryPath.spawnNewFfmpeg => true
  | _ => false

/-- Whether the chosen path serves chunks from a consumer registered with the
session's broadcaster (`_register_consumer`): only branch 1 does, via the
queue its caller registered; branches 2 and 3 never touch the consumer set. -/
def path_uses_registered_consumer : DeliveryPath → Bool
  | DeliveryPath.yieldGivenFirstChunk => true
  | _ => false

/-- C1 (code bug): `GET /stream/{id}` calls `stream_merged_mp4_async` with
only the session id, and for a session created by either
`create_merge_session` or `create_hls_session` the reuse branch's key test
`"chunk_queue" in session` fails — the sessions store `"broadcast_queue"`,
not `"chunk_queue"` — so the call falls through to spawning a brand new
ffmpeg process and never attaches to the running Producer/Broadcaster
pipeline, contradicting the claim (and the code's own docstrings). -/
theorem open_delivery_stream_spawns_new_ffmpeg :
    stream_merged_mp4_async_path create_merge_session_keys false false =
      DeliveryPath.spawnNewFfmpeg ∧
    stream_merged_mp4_async_path create_hls_session_keys false false =
      DeliveryPath.spawnNewFfmpeg ∧
    path_invokes_new_ffmpeg DeliveryPath.spawnNewFfmpeg = true ∧
    path_uses_registered_consumer DeliveryPath.spawnNewFfmpeg = false ∧
    create_merge_session_keys.contains ("broadcast_queue") = true ∧
    create_merge_session_keys.contains ("chunk_queue") = false := by
  decide

/-! ## Delivery route response (`stream_merged`, routers/appletv.py lines 128-137) -/

/-- Response headers set by the `stream_merged` route (appletv.py line 136). -/
def stream_merged_headers : List (String × String) :=
  [("Accept-Ranges", "bytes"), ("Cache-Control", "no-store")]

/-- Embedding of the `stream_merged` route: a missing/expired session raises
HTTP 404; otherwise a 200 streaming response carrying
`stream_merged_headers`. Returns (status, headers). -/
def stream_merged_route (tbl : List (String × Nat)) (now : Nat) (id : String) :
    Nat × List (String × String) :=
  match (get_merge_session tbl now id).1 with
  | none => (404, [])
  | some _ => (200, stream_merged_headers)

/-- C8 counterexample: the delivery response for a live session does
advertise range support — its headers contain `Accept-Ranges: bytes` —
refuting the claim that the response never advertises partial-content/range
support. -/
theorem stream_response_advertises_ranges :
    ("Accept-Ranges", "bytes") ∈ (stream_merged_route [("a1b2", 0)] 10 "a1b2").2 := by
  decide

/-- C8 (amended): every delivery response for a found session is a 200 that
advertises `Accept-Ranges: bytes` (without honouring range requests) and
disables intermediate caching via `Cache-Control: no-store`; an unknown or
expired id yields a 404 not-found status. -/
theorem stream_route_headers_and_notfound (tbl : List (String × Nat)) (now : Nat) (id : String) :
    ((get_merge_session tbl now id).1 = none → stream_merged_route tbl now id = (404, [])) ∧
    (∀ s, (get_merge_session tbl now id).1 = some s →
        (stream_merged_route tbl now id).1 = 200 ∧
        ("Cache-Control", "no-store") ∈ (stream_merged_route tbl now id).2 ∧
        ("Accept-Ranges", "bytes") ∈ (stream_merged_route tbl now id).2) := by
  constructor
  · intro h
    simp [stream_merged_route, h]
  · intro s h
    simp [stream_merged_route, h, stream_merged_headers]

/-- C8 witness: at a table holding session `"a1b2"` created at time 0, a
lookup at time 10 yields status 200 with both headers, and the unknown id
`"zzzz"` yields the 404 response. -/
theorem stream_route_headers_and_notfound_witness :
    ((stream_merged_route [("a1b2", 0)] 10 "a1b2").1 = 200 ∧
      ("Cache-Control", "no-store") ∈ (stream_merged_route [("a1b2", 0)] 10 "a1b2").2 ∧
      ("Accept-Ranges", "bytes") ∈ (stream_merged_route [("a1b2", 0)] 10 "a1b2").2) ∧
    stream_merged_route [("a1b2", 0)] 10 "zzzz" = (404, []) :=
  ⟨(stream_route_headers_and_notfound [("a1b2", 0)] 10 "a1b2").2 0 (by decide),
   (stream_route_headers_and_notfound [("a1b2", 0)] 10 "zzzz").1 (by decide)⟩

/-! ## Producer (`_run_ffmpeg_merge`, `_producer_merge`)

`_run_ffmpeg_merge` (stream_merge.py lines 217-249) is a blocking generator:
it spawns the ffmpeg subprocess, yields each nonempty 64 KiB read of its
stdout until EOF, waits for the process and — on nonzero exit with nonempty
stderr text — logs that diagnostic text; a spawn failure (or missing
session) makes the generator yield nothing. The external run is modelled by
its observable outcome. -/

/-- Outcome of one external ffmpeg run: whether `subprocess.Popen` succeeded,
the stdout reads obtained before EOF, the exit code, and the stderr text. -/
structure FfmpegRun where
  spawn_ok : Bool
  chunks : List Chunk
  exit_code : Int
  err_text : Chunk

/-- Embedding of the generator `_run_ffmpeg_merge`: returns the list of
chunks it yields together with whether it logged the stderr diagnostic.
A missing session yields nothing; a spawn failure is caught and logged,
yielding nothing; otherwise every nonempty stdout read is yielded and the
stderr text is logged exactly when the exit code is nonzero and the text is
nonempty. -/
def _run_ffmpeg_merge (session_found : Bool) (r : FfmpegRun) : List Chunk × Bool :=
  if !session_found then ([], false)
  else if !r.spawn_ok then ([], true)
  else (r.chunks.filter (fun c => !c.isEmpty),
        if r.exit_code = 0 then false else !r.err_text.isEmpty)

/-- Embedding of `_producer_merge` (stream_merge.py lines 66-85): iterate the
generator's output, enqueue every nonempty chunk, and — whether the loop ends
normally or an exception aborts it after `k` chunks (`abort_after = some k`)
— the `finally` block enqueues exactly one terminal `None`. Returns the full
sequence put on the broadcast queue. `yieldedChunks` is the portion of the
generator output the loop actually consumed (`abort_after = some k` models an
exception after `k` iterations). -/
def yieldedChunks (gen : List Chunk) (abort_after : Option Nat) : List Chunk :=
  match abort_after with
  | none => gen
  | some k => gen.take k

def _producer_merge (gen : List Chunk) (abort_after : Option Nat) : List (Option Chunk) :=
  ((yieldedChunks gen abort_after).filter (fun c => !c.isEmpty)).map Option.some ++ [none]

lemma count_none_map_some (l : List Chunk) :
    (l.map Option.some).count (none : Option Chunk) = 0 := by
  rw [List.count_eq_zero]
  intro h
  rcases List.mem_map.1 h with ⟨c, _, hc⟩
  exact Option.noConfusion hc

/-- C4: the producer puts exactly one terminal `None` on the broadcast queue,
it is the last element, and everything before it is exactly the nonempty
chunks the generator yielded before completion or abort, in order; in
particular on spawn failure the queue receives just `[None]`, and on a
nonzero exit with nonempty stderr the diagnostic text is logged while the
already-emitted chunks stand. -/
theorem producer_one_terminal_marker (gen : List Chunk) (ab : Option Nat)
    (sf : Bool) (r : FfmpegRun) :
    (_producer_merge gen ab).count (none : Option Chunk) = 1 ∧
    (_producer_merge gen ab).getLast? = some none ∧
    (_producer_merge gen ab).dropLast =
      ((yieldedChunks gen ab).filter (fun c => !c.isEmpty)).map Option.some ∧
    (r.spawn_ok = false → _producer_merge (_run_ffmpeg_merge sf r).1 ab = [none]) ∧
    (sf = true → r.spawn_ok = true → r.exit_code ≠ 0 → r.err_text ≠ [] →
      (_run_ffmpeg_merge sf r).2 = true) := by
  refine ⟨?_, ?_, ?_, ?_, ?_⟩
  · unfold _producer_merge
    rw [List.count_append, count_none_map_some]
    rfl
  · unfold _producer_merge
    exact List.getLast?_concat _
  · unfold _producer_merge
    exact List.dropLast_concat
  · intro hsf
    have h1 : (_run_ffmpeg_merge sf r).1 = [] := by
      cases sf <;> simp [_run_ffmpeg_merge, hsf]
    rw [h1]
    cases ab with
    | none => rfl
    | some k => simp [_producer_merge, yieldedChunks, List.take_nil]
  · intro hs hok hexit herr
    have : r.err_text.isEmpty = false := by
      cases h : r.err_text with
      | nil => exact absurd h herr
      | cons a t => rfl
    simp [_run_ffmpeg_merge, hs, hok, hexit, this]

/-- C4 witness: with ffmpeg spawn failing, the broadcast queue receives
exactly `[None]`; with a normal run yielding two chunks, the queue holds the
two chunks then one terminal `None`; a nonzero exit with stderr text is
logged. -/
theorem producer_one_terminal_marker_witness :
    _producer_merge (_run_ffmpeg_merge true ⟨false, [[9]], 1, [7]⟩).1 none = [none] ∧
    (_producer_merge [[1], [2]] none).count (none : Option Chunk) = 1 ∧
    (_producer_merge [[1], [2]] none).dropLast = [some [1], some [2]] ∧
    (_run_ffmpeg_merge true ⟨true, [[1], [2]], 1, [7]⟩).2 = true :=
  ⟨(producer_one_terminal_marker [] none true ⟨false, [[9]], 1, [7]⟩).2.2.2.1 rfl,
   (producer_one_terminal_marker [[1], [2]] none true ⟨false, [], 0, []⟩).1,
   (producer_one_terminal_marker [[1], [2]] none true ⟨false, [], 0, []⟩).2.2.1,
   (producer_one_terminal_marker [] none true ⟨true, [[1], [2]], 1, [7]⟩).2.2.2.2
     rfl rfl (by decide) (by decide)⟩

/-! ## Prewarm gate (`wait_hls_prewarm`, stream_merge.py lines 329-346)

The coroutine computes `deadline = monotonic() + timeout` and then, while
`monotonic() < deadline`, reads the buffer's total size under the lock,
returns `True` as soon as it is at least `min_bytes`, and otherwise sleeps
0.15 s before polling again; when the deadline is reached it returns
`False`. Time is modelled in milliseconds, so successive polls happen at
`t0, t0+150, t0+300, ...`; `totals t` is the buffer's total byte count as
read at instant `t`. A session lacking the buffer fields returns `False`
immediately. The function is total — mirroring that the source never raises
for a valid producing session. -/

/-- Poll interval: `asyncio.sleep(0.15)` in milliseconds. -/
def _PREWARM_POLL_MS : Nat := 150

/-- The polling loop of `wait_hls_prewarm`. -/
def prewarmLoop (totals : Nat → Nat) (min_bytes deadline t : Nat) : Bool :=
  if t < deadline then
    if min_bytes ≤ totals t then true
    else prewarmLoop totals min_bytes deadline (t + _PREWARM_POLL_MS)
  else false
termination_by deadline - t
decreasing_by simp_wf; simp [_PREWARM_POLL_MS] at *; omega

/-- Embedding of `wait_hls_prewarm`: `session_ok` is the guard that the
session exists and carries `buffer_list`/`buffer_lock`; `t0` the start
instant, `timeout` in milliseconds. -/
def wait_hls_prewarm (session_ok : Bool) (totals : Nat → Nat)
    (t0 timeout min_bytes : Nat) : Bool :=
  if !session_ok then false
  else prewarmLoop totals min_bytes (t0 + timeout) t0

lemma prewarmLoop_true_iff (totals : Nat → Nat) (min_bytes deadline t : Nat) :
    prewarmLoop totals min_bytes deadline t = true ↔
      ∃ k, t + k * _PREWARM_POLL_MS < deadline ∧
        min_bytes ≤ totals (t + k * _PREWARM_POLL_MS) := by
  induction t using prewarmLoop.induct totals min_bytes deadline with
  | case1 t ht hhit =>
    rw [prewarmLoop]
    simp only [ht, if_true, hhit, if_pos]
    constructor
    · intro _
      exact ⟨0, by simpa using ht, by simpa using hhit⟩
    · intro _
      trivial
  | case2 t ht hmiss ih =>
    rw [prewarmLoop]
    simp only [ht, if_true, if_neg hmiss]
    rw [ih]
    constructor
    · rintro ⟨k, hk1, hk2⟩
      refine ⟨k + 1, ?_, ?_⟩
      · have : t + _PREWARM_POLL_MS + k * _PREWARM_POLL_MS =
            t + (k + 1) * _PREWARM_POLL_MS := by ring
        omega
      · have : t + _PREWARM_POLL_MS + k * _PREWARM_POLL_MS =
            t + (k + 1) * _PREWARM_POLL_MS := by ring
        rw [this] at hk2
        exact hk2
    · rintro ⟨k, hk1, hk2⟩
      cases k with
      | zero =>
        simp at hk1 hk2
        exact absurd hk2 hmiss
      | succ k =>
        refine ⟨k, ?_, ?_⟩
        · have : t + (k + 1) * _PREWARM_POLL_MS =
              t + _PREWARM_POLL_MS + k * _PREWARM_POLL_MS := by ring
          omega
        · have : t + (k + 1) * _PREWARM_POLL_MS =
              t + _PREWARM_POLL_MS + k * _PREWARM_POLL_MS := by ring
          rw [this] at hk2
          exact hk2
  | case3 t ht =>
    rw [prewarmLoop]
    simp only [ht, if_false]
    constructor
    · intro h
      exact absurd h (by simp)
    · rintro ⟨k, hk1, _⟩
      exact absurd hk1 (by omega)

/-- C6: for a valid producing session, `wait_hls_prewarm` returns `True` if
and only if the replay buffer's total size, as read at one of its poll
instants, reaches `min_bytes` strictly before the deadline
(`t0 + timeout`); and the function is total, so it never raises — a session
missing its buffer fields simply gets `False`. -/
theorem prewarm_true_iff_bytes_before_deadline (totals : Nat → Nat)
    (t0 timeout min_bytes : Nat) :
    (wait_hls_prewarm true totals t0 timeout min_bytes = true ↔
      ∃ k, t0 + k * _PREWARM_POLL_MS < t0 + timeout ∧
        min_bytes ≤ totals (t0 + k * _PREWARM_POLL_MS)) ∧
    wait_hls_prewarm false totals t0 timeout min_bytes = false := by
  constructor
  · unfold wait_hls_prewarm
    simpa using prewarmLoop_true_iff totals min_bytes (t0 + timeout) t0
  · rfl

/-! ## Broadcaster, replay buffer and consumer fan-out
(`_broadcaster_merge` lines 88-114, `_register_consumer` lines 303-326)

`_broadcaster_merge` loops: take the next chunk from the broadcast queue;
on the terminal `None`, put `None` on every consumer queue and stop; on a
chunk, under `buffer_lock` append it to `buffer_list`, evict oldest chunks
while the tracked byte total exceeds `_BROADCAST_BUFFER_BYTES`, and put the
chunk on every registered consumer queue. `_register_consumer`, under the
same lock, copies `buffer_list` in order into a fresh queue and appends it
to `consumers`. Because the lock serialises these two critical sections,
one session's history is a sequence of atomic events — chunk relays
interleaved with consumer registrations — modelled as an event trace folded
over a state. The `requested` flag set by `create_merge_session` /
`create_hls_session` (lines 134 and 185) is carried in the state; no
operation of the module writes it after creation. -/

/-- Total byte size of the replay buffer (`sum(len(c) for c in buffer_list)`). -/
def totalBytes (bl : List Chunk) : Nat := (bl.map List.length).sum

/-- Eviction loop (lines 105-107): while the byte total exceeds the ceiling
and the buffer is nonempty, pop the oldest chunk and subtract its length. -/
def evict : List Chunk → Nat → List Chunk × Nat
  | [], n => ([], n)
  | old :: rest, n =>
    if _BROADCAST_BUFFER_BYTES < n then evict rest (n - old.length)
    else (old :: rest, n)

/-- Chunk-relay critical section (lines 102-107): append the chunk, add its
length to the running total, then run the eviction loop. -/
def broadcasterAppend (bl : List Chunk) (n : Nat) (c : Chunk) : List Chunk × Nat :=
  evict (bl ++ [c]) (n + c.length)

lemma totalBytes_nil : totalBytes [] = 0 := rfl

lemma totalBytes_cons (c : Chunk) (bl : List Chunk) :
    totalBytes (c :: bl) = c.length + totalBytes bl := by
  simp [totalBytes]

lemma totalBytes_append (l1 l2 : List Chunk) :
    totalBytes (l1 ++ l2) = totalBytes l1 + totalBytes l2 := by
  simp [totalBytes]

lemma evict_suffix (bl : List Chunk) (n : Nat) : (evict bl n).1 <:+ bl := by
  induction bl generalizing n with
  | nil => exact List.suffix_refl _
  | cons old rest ih =>
    by_cases hc : _BROADCAST_BUFFER_BYTES < n
    · simp only [evict, if_pos hc]
      exact (ih _).trans (List.suffix_cons old rest)
    · simp only [evict, if_neg hc]
      exact List.suffix_refl _

lemma evict_spec (bl : List Chunk) (n : Nat) (h : n = totalBytes bl) :
    (evict bl n).2 = totalBytes (evict bl n).1 ∧
    totalBytes (evict bl n).1 ≤ _BROADCAST_BUFFER_BYTES := by
  induction bl generalizing n with
  | nil =>
    subst h
    exact ⟨rfl, by simp [evict, totalBytes_nil]⟩
  | cons old rest ih =>
    by_cases hc : _BROADCAST_BUFFER_BYTES < n
    · simp only [evict, if_pos hc]
      apply ih
      rw [totalBytes_cons] at h
      omega
    · simp only [evict, if_neg hc]
      exact ⟨h, by rw [← h]; omega⟩

lemma evict_ne_nil (c : Chunk) (hc : c.length ≤ _BROADCAST_BUFFER_BYTES) :
    ∀ (bl : List Chunk) (n : Nat), n = totalBytes bl → bl.getLast? = some c →
      (evict bl n).1 ≠ [] := by
  intro bl
  induction bl with
  | nil =>
    intro n _ hlast
    simp at hlast
  | cons old rest ih =>
    intro n h hlast
    by_cases hbig : _BROADCAST_BUFFER_BYTES < n
    · simp only [evict, if_pos hbig]
      cases rest with
      | nil =>
        exfalso
        simp at hlast
        rw [totalBytes_cons, totalBytes_nil] at h
        subst hlast
        omega
      | cons b bs =>
        apply ih
        · rw [totalBytes_cons] at h
          omega
        · simpa using hlast
    · simp only [evict, if_neg hbig]
      simp

/-- State of one session's broadcaster: the replay buffer, the running byte
count local to `_broadcaster_merge`, the consumer queues (tagged with an id
so distinct registrations stay distinct), and the session's `requested`
flag. -/
structure BState where
  buffer : List Chunk
  bytes : Nat
  consumers : List (Nat × List (Option Chunk))
  requested : Bool

/-- An atomic lock-guarded event of one session: the broadcaster relays a
chunk, or `_register_consumer` registers consumer `cid`. -/
inductive Ev where
  | emit (c : Chunk)
  | register (cid : Nat)

/-- Effect of one event. `emit c`: append/evict on the buffer and enqueue
`c` on every registered consumer queue (lines 102-112). `register cid`:
seed a fresh queue with the whole current buffer, in order, and append it
to the consumer set (lines 319-325). Neither writes `requested`. -/
def bstep (st : BState) : Ev → BState
  | Ev.emit c =>
    { buffer := (broadcasterAppend st.buffer st.bytes c).1,
      bytes := (broadcasterAppend st.buffer st.bytes c).2,
      consumers := st.consumers.map (fun q => (q.1, q.2 ++ [some c])),
      requested := st.requested }
  | Ev.register cid =>
    { buffer := st.buffer, bytes := st.bytes,
      consumers := st.consumers ++ [(cid, st.buffer.map Option.some)],
      requested := st.requested }

/-- Session state right after `create_merge_session` / `create_hls_session`:
empty buffer, zero byte count, no consumers, `requested = False`. -/
def bInit : BState :=
  { buffer := [], bytes := 0, consumers := [], requested := false }

/-- The chunk sequence the Producer emitted along a trace. -/
def emitted : List Ev → List Chunk
  | [] => []
  | Ev.emit c :: evs => c :: emitted evs
  | Ev.register _ :: evs => emitted evs

/-- Terminal-marker fan-out (lines 94-101): on the producer's `None` the
broadcaster puts `None` on every registered consumer queue and stops. -/
def bfinish (st : BState) : BState :=
  { st with consumers := st.consumers.map (fun q => (q.1, q.2 ++ [none])) }

/-- A complete session run: fold the trace from the fresh session state,
then deliver the terminal marker. -/
def brun (evs : List Ev) : BState :=
  bfinish (List.foldl bstep bInit evs)

/-- Inductive invariant of the broadcaster against the emission history:
the tracked byte count is the buffer's true total, the total respects the
ceiling, the buffer is a contiguous suffix of the history, and every
consumer queue holds precisely `map some` of some suffix of the history. -/
def BInv (hist : List Chunk) (st : BState) : Prop :=
  st.bytes = totalBytes st.buffer ∧
  totalBytes st.buffer ≤ _BROADCAST_BUFFER_BYTES ∧
  st.buffer <:+ hist ∧
  ∀ q ∈ st.consumers, ∃ j, j ≤ hist.length ∧ q.2 = (hist.drop j).map Option.some

lemma binv_emit {hist : List Chunk} {st : BState} (h : BInv hist st) (c : Chunk) :
    BInv (hist ++ [c]) (bstep st (Ev.emit c)) := by
  obtain ⟨hb, _, hs, hcons⟩ := h
  have hbytes : st.bytes + c.length = totalBytes (st.buffer ++ [c]) := by
    rw [totalBytes_append, totalBytes_cons, totalBytes_nil, hb]
    omega
  have hspec := evict_spec (st.buffer ++ [c]) (st.bytes + c.length) hbytes
  refine ⟨hspec.1, hspec.2, ?_, ?_⟩
  · apply (evict_suffix (st.buffer ++ [c]) (st.bytes + c.length)).trans
    obtain ⟨t, ht⟩ := hs
    exact ⟨t, by rw [← List.append_assoc, ht]⟩
  · intro q hq
    obtain ⟨q0, hq0, rfl⟩ := List.mem_map.1 hq
    obtain ⟨j, hj, hobs⟩ := hcons q0 hq0
    refine ⟨j, by simp; omega, ?_⟩
    rw [List.drop_append_of_le_length hj, List.map_append, ← hobs]
    rfl

lemma binv_register {hist : List Chunk} {st : BState} (h : BInv hist st) (cid : Nat) :
    BInv hist (bstep st (Ev.register cid)) := by
  obtain ⟨hb, hle, hs, hcons⟩ := h
  refine ⟨hb, hle, hs, ?_⟩
  intro q hq
  rcases List.mem_append.1 hq with hq | hq
  · exact hcons q hq
  · obtain ⟨t, ht⟩ := hs
    simp only [List.mem_singleton] at hq
    subst hq
    refine ⟨t.length, ?_, ?_⟩
    · rw [← ht]
      simp
    · rw [← ht, List.drop_left]

lemma binv_fold (evs : List Ev) (hist : List Chunk) (st : BState) (h : BInv hist st) :
    BInv (hist ++ emitted evs) (List.foldl bstep st evs) := by
  induction evs generalizing hist st with
  | nil => simpa [emitted] using h
  | cons e evs ih =>
    cases e with
    | emit c =>
      have h3 := ih (hist ++ [c]) (bstep st (Ev.emit c)) (binv_emit h c)
      rw [List.append_assoc] at h3
      simpa [emitted, List.foldl_cons] using h3
    | register cid =>
      have h3 := ih hist (bstep st (Ev.register cid)) (binv_register h cid)
      simpa [emitted, List.foldl_cons] using h3

lemma binv_init : BInv [] bInit :=
  ⟨rfl, by simp [bInit, totalBytes_nil], List.nil_suffix, by intro q hq; simp [bInit] at hq⟩

lemma binv_run (evs : List Ev) : BInv (emitted evs) (List.foldl bstep bInit evs) := by
  have h := binv_fold evs [] bInit binv_init
  rwa [List.nil_append] at h

/-- C2: after every broadcaster step — any prefix of any event trace — the
replay buffer's total byte size never exceeds `_BROADCAST_BUFFER_BYTES`,
the tracked byte counter agrees with the buffer, and eviction is strictly
oldest-first at whole-chunk granularity, so the buffer is always a
contiguous most-recent suffix of the chunks emitted so far. -/
theorem replay_buffer_bounded (evs : List Ev) :
    totalBytes (List.foldl bstep bInit evs).buffer ≤ _BROADCAST_BUFFER_BYTES ∧
    (List.foldl bstep bInit evs).buffer <:+ emitted evs ∧
    (List.foldl bstep bInit evs).bytes = totalBytes (List.foldl bstep bInit evs).buffer := by
  obtain ⟨hb, hle, hs, _⟩ := binv_run evs
  exact ⟨hle, hs, hb⟩

lemma head_consumer_persists (evs : List Ev) :
    ∀ (st : BState) (cid : Nat) (obs : List (Option Chunk)),
      st.consumers.head? = some (cid, obs) →
      (List.foldl bstep st evs).consumers.head? =
        some (cid, obs ++ (emitted evs).map Option.some) := by
  induction evs with
  | nil =>
    intro st cid obs h
    simpa [emitted] using h
  | cons e evs ih =>
    intro st cid obs h
    obtain ⟨q, qs, hc⟩ : ∃ q qs, st.consumers = q :: qs := by
      cases hcs : st.consumers with
      | nil => rw [hcs] at h; simp at h
      | cons q qs => exact ⟨q, qs, rfl⟩
    rw [hc] at h
    simp only [List.head?_cons, Option.some.injEq] at h
    cases e with
    | emit c =>
      have h2 : (bstep st (Ev.emit c)).consumers.head? = some (cid, obs ++ [some c]) := by
        simp [bstep, hc, h]
      have h3 := ih _ _ _ h2
      rw [List.append_assoc] at h3
      simpa [emitted, List.foldl_cons] using h3
    | register cid2 =>
      have h2 : (bstep st (Ev.register cid2)).consumers.head? = some (cid, obs) := by
        simp [bstep, hc, h]
      have h3 := ih _ _ _ h2
      simpa [emitted, List.foldl_cons] using h3

/-- C3: in a completed session run, every consumer registered before
completion observes precisely `map some` of a contiguous suffix of the
Producer's emission sequence — the chunks in exactly emission order, none
duplicated — followed by exactly one terminal marker; and a consumer
registered at the very start (the trace's first event) observes exactly the
full emission sequence followed by the one terminal marker. -/
theorem consumer_observes_emission_order (evs : List Ev) :
    (∀ q ∈ (brun evs).consumers, ∃ j,
        q.2 = ((emitted evs).drop j).map Option.some ++ [none] ∧
        q.2.count (none : Option Chunk) = 1) ∧
    (∀ cid evs2, evs = Ev.register cid :: evs2 →
        (brun evs).consumers.head? =
          some (cid, (emitted evs).map Option.some ++ [none])) := by
  constructor
  · intro q hq
    obtain ⟨q0, hq0, rfl⟩ := List.mem_map.1 hq
    obtain ⟨_, _, _, hcons⟩ := binv_run evs
    obtain ⟨j, _, hobs⟩ := hcons q0 hq0
    refine ⟨j, by rw [hobs], ?_⟩
    rw [hobs, List.count_append, count_none_map_some]
    rfl
  · rintro cid evs2 rfl
    have h1 : (bstep bInit (Ev.register cid)).consumers.head? = some (cid, []) := by
      simp [bstep, bInit]
    have h2 := head_consumer_persists evs2 _ cid [] h1
    show ((List.foldl bstep bInit (Ev.register cid :: evs2)).consumers.map
        (fun q => (q.1, q.2 ++ [none]))).head? = _
    rw [List.foldl_cons, List.head?_map, h2]
    simp [emitted]

lemma buffer_stays_ne_nil (evs : List Ev) :
    ∀ st : BState, st.bytes = totalBytes st.buffer →
      (∀ c ∈ emitted evs, c.length ≤ _BROADCAST_BUFFER_BYTES) →
      (st.buffer ≠ [] ∨ emitted evs ≠ []) →
      (List.foldl bstep st evs).buffer ≠ [] := by
  induction evs with
  | nil =>
    intro st _ _ hne
    rcases hne with h | h
    · simpa using h
    · simp [emitted] at h
  | cons e evs ih =>
    intro st hb hlen hne
    cases e with
    | register cid =>
      rw [List.foldl_cons]
      apply ih (bstep st (Ev.register cid)) hb
      · intro c hc
        exact hlen c (by simpa [emitted] using hc)
      · rcases hne with h | h
        · exact Or.inl h
        · exact Or.inr (by simpa [emitted] using h)
    | emit c =>
      rw [List.foldl_cons]
      have hclen : c.length ≤ _BROADCAST_BUFFER_BYTES :=
        hlen c (by simp [emitted])
      have hbytes : st.bytes + c.length = totalBytes (st.buffer ++ [c]) := by
        rw [totalBytes_append, totalBytes_cons, totalBytes_nil, hb]
        omega
      have hne2 : (bstep st (Ev.emit c)).buffer ≠ [] :=
        evict_ne_nil c hclen (st.buffer ++ [c]) (st.bytes + c.length) hbytes
          (List.getLast?_concat _)
      apply ih (bstep st (Ev.emit c))
      · exact (evict_spec (st.buffer ++ [c]) (st.bytes + c.length) hbytes).1
      · intro d hd
        refine hlen d ?_
        simp only [emitted, List.mem_cons]
        exact Or.inr hd
      · exact Or.inl hne2

/-- C3 witness: on the trace "register consumer 1, then emit chunk `[9]`",
the consumer's queue holds exactly the emitted chunk and then one terminal
marker, both through the membership clause and as the head (first
registered) consumer. -/
theorem consumer_observes_emission_order_witness :
    (∃ j, (1, ([some [9], none] : List (Option Chunk))).2 =
        ((emitted [Ev.register 1, Ev.emit [9]]).drop j).map Option.some ++ [none] ∧
        (1, ([some [9], none] : List (Option Chunk))).2.count (none : Option Chunk) = 1) ∧
    (brun [Ev.register 1, Ev.emit [9]]).consumers.head? =
      some (1, (emitted [Ev.register 1, Ev.emit [9]]).map Option.some ++ [none]) :=
  ⟨(consumer_observes_emission_order [Ev.register 1, Ev.emit [9]]).1
      (1, [some [9], none]) (by decide),
   (consumer_observes_emission_order [Ev.register 1, Ev.emit [9]]).2 1 [Ev.emit [9]] rfl⟩

/-- C7: registering a consumer is one atomic lock-guarded step that appends
to the consumer set a fresh queue seeded with the entire current replay
buffer in order; that buffer is a contiguous most-recent suffix of the
chunks emitted so far whose total size is at most the 2 MiB ceiling, and —
as long as every emitted chunk fits the ceiling (stdout reads are 64 KiB) —
it is nonempty whenever anything was emitted, so a late joiner never starts
empty mid-stream. -/
theorem register_consumer_seeds_replay (evs : List Ev) (cid : Nat) :
    (bstep (List.foldl bstep bInit evs) (Ev.register cid)).consumers =
      (List.foldl bstep bInit evs).consumers ++
        [(cid, (List.foldl bstep bInit evs).buffer.map Option.some)] ∧
    (∃ j, (List.foldl bstep bInit evs).buffer = (emitted evs).drop j) ∧
    totalBytes (List.foldl bstep bInit evs).buffer ≤ _BROADCAST_BUFFER_BYTES ∧
    ((∀ c ∈ emitted evs, c.length ≤ _BROADCAST_BUFFER_BYTES) → emitted evs ≠ [] →
      (List.foldl bstep bInit evs).buffer ≠ []) := by
  obtain ⟨_, hle, hs, _⟩ := binv_run evs
  refine ⟨rfl, ?_, hle, ?_⟩
  · obtain ⟨t, ht⟩ := hs
    exact ⟨t.length, by rw [← ht, List.drop_left]⟩
  · intro hlen hne
    exact buffer_stays_ne_nil evs bInit rfl hlen (Or.inr hne)

/-- C7 witness: after one emitted chunk `[1, 2, 3]`, registering consumer 5
appends a queue seeded with the whole buffer, and the buffer is nonempty. -/
theorem register_consumer_seeds_replay_witness :
    (bstep (List.foldl bstep bInit [Ev.emit [1, 2, 3]]) (Ev.register 5)).consumers =
      (List.foldl bstep bInit [Ev.emit [1, 2, 3]]).consumers ++
        [(5, (List.foldl bstep bInit [Ev.emit [1, 2, 3]]).buffer.map Option.some)] ∧
    (List.foldl bstep bInit [Ev.emit [1, 2, 3]]).buffer ≠ [] :=
  ⟨(register_consumer_seeds_replay [Ev.emit [1, 2, 3]] 5).1,
   (register_consumer_seeds_replay [Ev.emit [1, 2, 3]] 5).2.2.2
     (by intro c hc; simp [emitted] at hc; simp [hc, _BROADCAST_BUFFER_BYTES])
     (by simp [emitted])⟩

/-- C9 (code bug): `requested` is `False` at session creation and no
operation of the module ever assigns it afterwards — in particular
registering a consumer leaves it untouched — so along every event trace it
stays `False` and never becomes true, contradicting the claim that it
becomes true once a consumer has registered. -/
theorem requested_never_becomes_true (evs : List Ev) :
    bInit.requested = false ∧
    (∀ (st : BState) (cid : Nat), (bstep st (Ev.register cid)).requested = st.requested) ∧
    (List.foldl bstep bInit evs).requested = false := by
  refine ⟨rfl, fun st cid => rfl, ?_⟩
  have hpres : ∀ (l : List Ev) (st : BState),
      (List.foldl bstep st l).requested = st.requested := by
    intro l
    induction l with
    | nil => intro st; rfl
    | cons e l ih =>
      intro st
      rw [List.foldl_cons, ih (bstep st e)]
      cases e <;> rfl
  rw [hpres evs bInit]
  rfl

end StreamMerge
